import Mathlib

/-!
Verification of the step-workflow state machine implemented in
`brambling/views/utils.py` (classes `Workflow`, `Step`, `WorkflowMixin`).

The embedding is parametric in a type `Ext` of external mutable state
(database contents etc.) consulted by the step predicates: every method
that Python implements as `self.method()` reading external state becomes a
Lean function taking an explicit `ext : Ext` argument.  Subclass hooks
(`include_in`, `is_active`, `_is_completed`, `get_errors`) become function
fields of a `StepClass` record.
-/

namespace Brambling

/-- A step definition (a `Step` subclass in the source): its class-level
attributes `slug`, `view_name`, the classmethod `include_in`, and the
overridable instance methods `is_active`, `_is_completed`, `get_errors`. -/
structure StepClass (Ext : Type) where
  slug : String
  view_name : String
  include_in : List (String × String) → Bool
  is_active_impl : Ext → Bool
  is_completed_impl : Ext → Bool
  get_errors_impl : Ext → List String

/-- A step instance: `Step.__init__(self, workflow, index)` stores the
workflow back-reference and the index.  The back-reference is represented
implicitly: every method below takes the owning workflow as an argument. -/
structure Step (Ext : Type) where
  cls : StepClass Ext
  index : Nat

/-- One insertion into an association list with `OrderedDict` semantics:
an existing key keeps its position and has its value replaced, a new key
is appended at the end. -/
def odInsert {α : Type} (l : List (String × α)) (kv : String × α) : List (String × α) :=
  if l.any (fun p => p.1 == kv.1) then
    l.map (fun p => if p.1 == kv.1 then (p.1, kv.2) else p)
  else
    l ++ [kv]

/-- `OrderedDict(pairs)`: left fold of `odInsert` over the pair sequence. -/
def odOfList {α : Type} (l : List (String × α)) : List (String × α) :=
  l.foldl odInsert []

/-- `d.get(k)` on an ordered dict: value of the first pair with key `k`. -/
def odGet? {α : Type} (l : List (String × α)) (k : String) : Option α :=
  (l.find? (fun p => p.1 == k)).map Prod.snd

/-- `Workflow`: holds the ordered mapping `steps` (an `OrderedDict` from
slug to step instance).  The contextual kwargs set by `__init__` via
`setattr` are modelled as the kwargs list passed to construction and
consulted by `include_in`. -/
structure Workflow (Ext : Type) where
  steps : List (String × Step Ext)

/-- `self.steps.values()`. -/
def Workflow.values {Ext : Type} (w : Workflow Ext) : List (Step Ext) :=
  w.steps.map Prod.snd

/-- `Workflow.__init__`: reject a reserved `steps` kwarg, then filter the
step-class registry by `include_in` and instantiate each surviving class
with its position in the filtered sequence, keyed by slug. -/
def Workflow.make {Ext : Type} (step_classes : List (StepClass Ext))
    (kwargs : List (String × String)) : Except String (Workflow Ext) :=
  if kwargs.any (fun kv => kv.1 == "steps") then
    Except.error "`steps` can't be passed as a kwarg value."
  else
    let cls_iter := step_classes.filter (fun cls => cls.include_in kwargs)
    Except.ok ⟨odOfList (cls_iter.enum.map (fun ic => (ic.2.slug, Step.mk ic.2 ic.1)))⟩

/-- `Step.is_active()`: delegates to the subclass hook (default `True`). -/
def Step.is_active {Ext : Type} (s : Step Ext) (ext : Ext) : Bool :=
  s.cls.is_active_impl ext

/-- Denotation of the `Step.errors` property: the value `get_errors()`
returns (memoization is modelled separately by `errorsSt`). -/
def Step.errors {Ext : Type} (s : Step Ext) (ext : Ext) : List String :=
  s.cls.get_errors_impl ext

/-- `Step.is_valid()`: `not bool(self.errors)`. -/
def Step.is_valid {Ext : Type} (s : Step Ext) (ext : Ext) : Bool :=
  (s.errors ext).isEmpty

/-- `Step.previous_step`: first `is_active()` step scanning
`steps.values()[:index]` in reverse. -/
def Step.previous_step {Ext : Type} (w : Workflow Ext) (s : Step Ext) (ext : Ext) :
    Option (Step Ext) :=
  ((w.values.take s.index).reverse).find? (fun step => step.is_active ext)

/-- `Step.next_step`: first `is_active()` step in `steps.values()[index+1:]`. -/
def Step.next_step {Ext : Type} (w : Workflow Ext) (s : Step Ext) (ext : Ext) :
    Option (Step Ext) :=
  (w.values.drop (s.index + 1)).find? (fun step => step.is_active ext)

/-- Denotation of `Step.is_completed()` with explicit recursion fuel:
`self._is_completed() and self.is_valid() and (self.previous_step is None
or self.previous_step.is_completed())`.  The fuel only bounds the
recursion through `previous_step`; for a well-formed workflow (stored
index = position) any fuel above the step's index gives the same value. -/
def Step.is_completedN {Ext : Type} (w : Workflow Ext) (ext : Ext) :
    Nat → Step Ext → Bool
  | 0, _ => false
  | fuel + 1, s =>
    s.cls.is_completed_impl ext && s.is_valid ext &&
      (match Step.previous_step w s ext with
       | none => true
       | some p => Step.is_completedN w ext fuel p)

/-- `Step.is_completed()` (pure denotation). -/
def Step.is_completed {Ext : Type} (w : Workflow Ext) (ext : Ext) (s : Step Ext) : Bool :=
  Step.is_completedN w ext (s.index + 1) s

/-- `Step.is_accessible()`: `previous_step is None or
previous_step.is_completed()`. -/
def Step.is_accessible {Ext : Type} (w : Workflow Ext) (s : Step Ext) (ext : Ext) : Bool :=
  match Step.previous_step w s ext with
  | none => true
  | some p => Step.is_completed w ext p

/-- `Workflow.active_steps` property: list comprehension filtering
`steps.values()` by `is_active()`, recomputed from `ext` on each call. -/
def Workflow.active_steps {Ext : Type} (w : Workflow Ext) (ext : Ext) : List (Step Ext) :=
  w.values.filter (fun step => step.is_active ext)

/-- Well-formedness of a workflow: each stored step index equals the
step's position in `steps.values()`.  `Workflow.make` establishes this. -/
abbrev Workflow.WF {Ext : Type} (w : Workflow Ext) : Prop :=
  ∀ i, (h : i < w.values.length) → (w.values[i]).index = i

/-- Outcome of `WorkflowMixin.dispatch`: either an `HttpResponseRedirect`
to a step's view, or falling through to `super().dispatch` with the
resolved current step (possibly absent). -/
inductive DispatchResult (Ext : Type) where
  | redirect (target : Step Ext)
  | proceed (current : Option (Step Ext))

/-- `WorkflowMixin.dispatch`: resolve the current step by slug; if it is
missing, inactive or inaccessible, redirect to the first accessible and
active step found scanning `steps.values()` in reverse; if the scan finds
nothing, fall through to `super().dispatch` (no redirect). -/
def dispatch {Ext : Type} (w? : Option (Workflow Ext)) (slug? : Option String) (ext : Ext) :
    DispatchResult Ext :=
  match w?, slug? with
  | some w, some slug =>
    match odGet? w.steps slug with
    | none =>
      match w.values.reverse.find?
          (fun step => Step.is_accessible w step ext && step.is_active ext) with
      | some target => DispatchResult.redirect target
      | none => DispatchResult.proceed none
    | some cur =>
      if cur.is_active ext && Step.is_accessible w cur ext then
        DispatchResult.proceed (some cur)
      else
        match w.values.reverse.find?
            (fun step => Step.is_accessible w step ext && step.is_active ext) with
        | some target => DispatchResult.redirect target
        | none => DispatchResult.proceed (some cur)
  | _, _ => DispatchResult.proceed none

/-- `WorkflowMixin.get_success_url`: the current step's own view when its
`errors` list is truthy, otherwise `next_step.view_name`.  `none` models
the unhandled `AttributeError` raised when `next_step` is `None`. -/
def get_success_url {Ext : Type} (w : Workflow Ext) (cur : Step Ext) (ext : Ext) :
    Option String :=
  if !(cur.errors ext).isEmpty then
    some cur.cls.view_name
  else
    (Step.next_step w cur ext).map (fun n => n.cls.view_name)

/-! ### Operational model of the per-instance memoization

`Step.is_completed` caches `self._completed = self._is_completed()` and
the `errors` property caches `self._errors = self.get_errors()`.  The
mutable per-instance attributes of all steps of one workflow are modelled
as a store indexed by step index, together with counters recording how
often each underlying hook has been invoked. -/

/-- Mutable per-instance state of one step: the `_completed` and `_errors`
cache attributes plus invocation counters for `_is_completed` and
`get_errors`. -/
structure StepState where
  completedCache : Option Bool
  errorsCache : Option (List String)
  completedCalls : Nat
  errorsCalls : Nat

/-- A freshly constructed step: neither cache attribute exists yet. -/
def initStepState : StepState := ⟨none, none, 0, 0⟩

/-- Mutable state of all step instances of a workflow, indexed by step
index. -/
abbrev Store : Type := Nat → StepState

/-- Store of a freshly constructed workflow. -/
def initStore : Store := fun _ => initStepState

/-- Attribute assignment on one step instance: update the state of the
step at index `k`. -/
def storeSet (σ : Store) (k : Nat) (v : StepState) : Store :=
  fun j => if j = k then v else σ j

/-- Stateful `errors` property: return the cached `_errors` if present,
otherwise invoke `get_errors()` once, cache and count it. -/
def errorsSt {Ext : Type} (ext : Ext) (s : Step Ext) (σ : Store) : List String × Store :=
  match (σ s.index).errorsCache with
  | some e => (e, σ)
  | none =>
    (s.cls.get_errors_impl ext,
      storeSet σ s.index
        { completedCache := (σ s.index).completedCache
          errorsCache := some (s.cls.get_errors_impl ext)
          completedCalls := (σ s.index).completedCalls
          errorsCalls := (σ s.index).errorsCalls + 1 })

/-- The `if not hasattr(self, '_completed'): self._completed =
self._is_completed()` step followed by reading `self._completed`: fills
the cache if absent (invoking `_is_completed` once, counted). -/
def fillCompleted {Ext : Type} (ext : Ext) (s : Step Ext) (σ : Store) : Bool × Store :=
  match (σ s.index).completedCache with
  | some c => (c, σ)
  | none =>
    (s.cls.is_completed_impl ext,
      storeSet σ s.index
        { completedCache := some (s.cls.is_completed_impl ext)
          errorsCache := (σ s.index).errorsCache
          completedCalls := (σ s.index).completedCalls + 1
          errorsCalls := (σ s.index).errorsCalls })

/-- Stateful `is_completed()`: fill the `_completed` cache, then evaluate
`self._completed and self.is_valid() and (previous_step is None or
previous_step.is_completed())` with Python's short-circuiting, threading
the store through the recursive call. -/
def is_completedSt {Ext : Type} (w : Workflow Ext) (ext : Ext) :
    Nat → Step Ext → Store → Bool × Store
  | 0, _, σ => (false, σ)
  | fuel + 1, s, σ =>
    if (fillCompleted ext s σ).1 = false then (false, (fillCompleted ext s σ).2)
    else
      if (errorsSt ext s (fillCompleted ext s σ).2).1.isEmpty = false then
        (false, (errorsSt ext s (fillCompleted ext s σ).2).2)
      else
        match Step.previous_step w s ext with
        | none => (true, (errorsSt ext s (fillCompleted ext s σ).2).2)
        | some p => is_completedSt w ext fuel p (errorsSt ext s (fillCompleted ext s σ).2).2

/-- One externally triggered call on a step of the workflow, selected by
its position: either `step.is_completed()` or `step.errors`. -/
inductive WOp where
  | callCompleted (i : Nat)
  | callErrors (i : Nat)

/-- Apply one call to the store (out-of-range positions are no-ops). -/
def applyOp {Ext : Type} (w : Workflow Ext) (ext : Ext) (σ : Store) : WOp → Store
  | WOp.callCompleted i =>
    match w.values[i]? with
    | some s => (is_completedSt w ext (s.index + 1) s σ).2
    | none => σ
  | WOp.callErrors i =>
    match w.values[i]? with
    | some s => (errorsSt ext s σ).2
    | none => σ

/-- Run an arbitrary sequence of calls against a fresh workflow. -/
def runOps {Ext : Type} (w : Workflow Ext) (ext : Ext) (ops : List WOp) : Store :=
  ops.foldl (applyOp w ext) initStore

/-- Store invariant: every cache attribute is either absent or holds
exactly the value the corresponding hook returns for `ext`, each call
counter equals 1 precisely when the cache is filled, and indices outside
the workflow are untouched. -/
def GoodStore {Ext : Type} (w : Workflow Ext) (ext : Ext) (σ : Store) : Prop :=
  (∀ i, (h : i < w.values.length) →
    ((σ i).completedCache = none ∨
      (σ i).completedCache = some ((w.values[i]).cls.is_completed_impl ext)) ∧
    ((σ i).errorsCache = none ∨
      (σ i).errorsCache = some ((w.values[i]).cls.get_errors_impl ext)) ∧
    (σ i).completedCalls = (if (σ i).completedCache = none then 0 else 1) ∧
    (σ i).errorsCalls = (if (σ i).errorsCache = none then 0 else 1)) ∧
  (∀ i, w.values.length ≤ i → σ i = initStepState)

/-! ### Concrete fixtures used by witnesses and counterexamples -/

/-- A step class that is included, active, domain-complete and
error-free. -/
def clsDone (s v : String) : StepClass Unit :=
  ⟨s, v, fun _ => true, fun _ => true, fun _ => true, fun _ => []⟩

/-- A step class that is included and active but not yet domain-complete. -/
def clsTodo (s v : String) : StepClass Unit :=
  ⟨s, v, fun _ => true, fun _ => true, fun _ => false, fun _ => []⟩

/-- A step class whose `is_active()` is `False`. -/
def clsOff (s v : String) : StepClass Unit :=
  ⟨s, v, fun _ => true, fun _ => false, fun _ => true, fun _ => []⟩

/-- A step class whose `include_in` is `False`. -/
def clsSkip (s v : String) : StepClass Unit :=
  ⟨s, v, fun _ => false, fun _ => true, fun _ => true, fun _ => []⟩

/-- First step of `wDone2`. -/
def stA : Step Unit := ⟨clsDone "a" "va", 0⟩

/-- Second step of `wDone2`. -/
def stB : Step Unit := ⟨clsDone "b" "vb", 1⟩

/-- A two-step workflow, both steps active, complete and error-free. -/
def wDone2 : Workflow Unit := ⟨[("a", stA), ("b", stB)]⟩

/-- The inactive second step of `wOffGate`. -/
def stOff1 : Step Unit := ⟨clsOff "off" "voff", 1⟩

/-- A workflow whose first step is complete and whose second step is
inactive. -/
def wOffGate : Workflow Unit := ⟨[("a", stA), ("off", stOff1)]⟩

/-- A one-step workflow whose only step is inactive. -/
def wOff1 : Workflow Unit := ⟨[("off", ⟨clsOff "off" "voff", 0⟩)]⟩

/-- A step class over `Ext := Bool` whose activity is exactly the current
external state. -/
def clsLive : StepClass Bool :=
  ⟨"live", "vlive", fun _ => true, fun b => b, fun _ => true, fun _ => []⟩

/-- A one-step workflow whose step's activity tracks the external state. -/
def wLive : Workflow Bool := ⟨[("live", ⟨clsLive, 0⟩)]⟩

/-! ### Helper lemmas -/

/-- Characterization of a successful backward scan: `l.reverse.find? p`
returns `a` exactly when `a` splits `l` with everything after it failing
`p` (i.e. `a` is the last element of `l` satisfying `p`). -/
theorem reverse_find?_eq_some {α : Type} {p : α → Bool} {l : List α} {a : α} :
    l.reverse.find? p = some a ↔
      p a = true ∧ ∃ l₁ l₂, l = l₁ ++ a :: l₂ ∧ ∀ x ∈ l₂, p x = false := by
  rw [List.find?_eq_some]
  constructor
  · rintro ⟨hpa, as, bs, hsplit, hall⟩
    rw [List.reverse_eq_iff] at hsplit
    refine ⟨hpa, bs.reverse, as.reverse, by rw [hsplit]; simp, ?_⟩
    intro x hx
    have := hall x (List.mem_reverse.1 hx)
    simpa using this
  · rintro ⟨hpa, l₁, l₂, rfl, hall⟩
    refine ⟨hpa, l₂.reverse, l₁.reverse, by simp, ?_⟩
    intro x hx
    have := hall x (List.mem_reverse.1 hx)
    simpa using this

/-- In a well-formed workflow a member step sits at the position given by
its stored index. -/
theorem wf_getElem_of_mem {Ext : Type} {w : Workflow Ext} (hwf : w.WF) {s : Step Ext}
    (hs : s ∈ w.values) : ∃ h : s.index < w.values.length, w.values[s.index] = s := by
  rcases List.mem_iff_getElem.1 hs with ⟨i, hi, hgi⟩
  have hix := hwf i hi
  rw [hgi] at hix
  subst hix
  exact ⟨hi, hgi⟩

/-- A step returned by `previous_step` is active and lies in the prefix
strictly before the calling step's index. -/
theorem previous_step_active_mem {Ext : Type} {w : Workflow Ext} {s p : Step Ext} {ext : Ext}
    (h : Step.previous_step w s ext = some p) :
    p.is_active ext = true ∧ p ∈ w.values.take s.index := by
  unfold Step.previous_step at h
  have h1 := List.find?_some h
  have h2 := List.mem_of_find?_eq_some h
  exact ⟨h1, List.mem_reverse.1 h2⟩

/-- In a well-formed workflow, `previous_step` returns a workflow member
with strictly smaller index. -/
theorem previous_step_index_lt {Ext : Type} {w : Workflow Ext} (hwf : w.WF)
    {s p : Step Ext} {ext : Ext} (h : Step.previous_step w s ext = some p) :
    p ∈ w.values ∧ p.index < s.index := by
  obtain ⟨_, hmem⟩ := previous_step_active_mem h
  rcases List.mem_iff_getElem.1 hmem with ⟨i, hi, hgi⟩
  have hitake : i < s.index ∧ i < w.values.length := by
    have := List.length_take s.index w.values
    omega
  have hglt : (w.values.take s.index)[i] = w.values[i] := by
    rw [List.getElem_eq_iff, List.getElem?_take_of_lt hitake.1,
      List.getElem?_eq_getElem hitake.2]
  rw [hglt] at hgi
  constructor
  · rw [← hgi]; exact List.getElem_mem hitake.2
  · have := hwf i hitake.2
    rw [hgi] at this
    omega

/-- The fuelled completion predicate is fuel-insensitive above a member
step's index in a well-formed workflow. -/
theorem is_completedN_fuel_eq {Ext : Type} {w : Workflow Ext} (hwf : w.WF) (ext : Ext) :
    ∀ f₁ f₂ (s : Step Ext), s ∈ w.values → s.index < f₁ → s.index < f₂ →
      Step.is_completedN w ext f₁ s = Step.is_completedN w ext f₂ s := by
  intro f₁
  induction f₁ with
  | zero => intro f₂ s _ h1 _; omega
  | succ g ih =>
    intro f₂ s hs h1 h2
    cases f₂ with
    | zero => omega
    | succ f₂' =>
      simp only [Step.is_completedN]
      cases hp : Step.previous_step w s ext with
      | none => rfl
      | some p =>
        obtain ⟨hpm, hpi⟩ := previous_step_index_lt hwf hp
        show (s.cls.is_completed_impl ext && s.is_valid ext && Step.is_completedN w ext g p)
            = (s.cls.is_completed_impl ext && s.is_valid ext && Step.is_completedN w ext f₂' p)
        rw [ih f₂' p hpm (by omega) (by omega)]

/-- `is_completed` satisfies the recursive equation of the source: own
predicate, validity, and completion of the previous active step. -/
theorem is_completed_unfold {Ext : Type} {w : Workflow Ext} (hwf : w.WF) (ext : Ext)
    {s : Step Ext} (hs : s ∈ w.values) :
    Step.is_completed w ext s =
      (s.cls.is_completed_impl ext && s.is_valid ext &&
        (match Step.previous_step w s ext with
         | none => true
         | some p => Step.is_completed w ext p)) := by
  show Step.is_completedN w ext (s.index + 1) s = _
  simp only [Step.is_completedN]
  cases hp : Step.previous_step w s ext with
  | none => rfl
  | some p =>
    obtain ⟨hpm, hpi⟩ := previous_step_index_lt hwf hp
    show (s.cls.is_completed_impl ext && s.is_valid ext && Step.is_completedN w ext s.index p)
        = (s.cls.is_completed_impl ext && s.is_valid ext && Step.is_completed w ext p)
    rw [is_completedN_fuel_eq hwf ext s.index (p.index + 1) p hpm (by omega) (by omega)]
    rfl

/-! ### Claims C1, C2, C4, C10 -/

/-- C1: for every workflow and member step, `is_completed()` implies that
`previous_step` is `None` or itself `is_completed()` (prefix-completion
invariant over the active steps). -/
theorem C1_completion_chain {Ext : Type} (w : Workflow Ext) (ext : Ext) (hwf : w.WF)
    (s : Step Ext) (hs : s ∈ w.values) (hc : Step.is_completed w ext s = true) :
    Step.previous_step w s ext = none ∨
      ∃ p, Step.previous_step w s ext = some p ∧ Step.is_completed w ext p = true := by
  rw [is_completed_unfold hwf ext hs] at hc
  cases hp : Step.previous_step w s ext with
  | none => exact Or.inl rfl
  | some p =>
    rw [hp] at hc
    simp only [Bool.and_eq_true] at hc
    exact Or.inr ⟨p, rfl, hc.2⟩

/-- C1 witness: in the concrete two-step workflow `wDone2` the completed
second step has a completed previous step. -/
theorem C1_completion_chain_witness :
    Step.previous_step wDone2 stB () = none ∨
      ∃ p, Step.previous_step wDone2 stB () = some p ∧ Step.is_completed wDone2 () p = true :=
  C1_completion_chain wDone2 () (by decide) stB (List.Mem.tail _ (List.Mem.head _)) rfl

/-- C2: `is_accessible()` holds iff no step strictly before is active, or
the nearest previous active step (last active one in the prefix) is
completed. -/
theorem C2_is_accessible_iff {Ext : Type} (w : Workflow Ext) (s : Step Ext) (ext : Ext) :
    Step.is_accessible w s ext = true ↔
      ((∀ q ∈ w.values.take s.index, q.is_active ext = false) ∨
       (∃ p l₁ l₂, w.values.take s.index = l₁ ++ p :: l₂ ∧ p.is_active ext = true ∧
          (∀ q ∈ l₂, q.is_active ext = false) ∧ Step.is_completed w ext p = true)) := by
  unfold Step.is_accessible
  cases hp : Step.previous_step w s ext with
  | none =>
    refine iff_of_true rfl (Or.inl ?_)
    intro q hq
    unfold Step.previous_step at hp
    have := List.find?_eq_none.1 hp q (List.mem_reverse.2 hq)
    simpa using this
  | some p =>
    unfold Step.previous_step at hp
    obtain ⟨hact, l₁, l₂, hsplit, hinact⟩ := reverse_find?_eq_some.1 hp
    constructor
    · intro hcomp
      exact Or.inr ⟨p, l₁, l₂, hsplit, hact, hinact, hcomp⟩
    · rintro (hall | ⟨q, m₁, m₂, hsplit', hqact, hinact', hqcomp⟩)
      · have hpmem : p ∈ w.values.take s.index := by
          rw [hsplit]; exact List.mem_append_right _ (List.mem_cons_self _ _)
        rw [hall p hpmem] at hact
        simp at hact
      · have hq : ((w.values.take s.index).reverse).find? (fun step => step.is_active ext)
            = some q := reverse_find?_eq_some.2 ⟨hqact, m₁, m₂, hsplit', hinact'⟩
        rw [hp] at hq
        cases hq
        exact hqcomp

/-- C4: `previous_step` is the last active step strictly before the
step's index (`none` when no such step exists, in particular at index 0)
and `next_step` is the first active step strictly after it; neither ever
returns an inactive step. -/
theorem C4_previous_next_scan {Ext : Type} (w : Workflow Ext) (s : Step Ext) (ext : Ext) :
    (∀ p, Step.previous_step w s ext = some p ↔
       (p.is_active ext = true ∧ ∃ l₁ l₂, w.values.take s.index = l₁ ++ p :: l₂ ∧
          ∀ q ∈ l₂, q.is_active ext = false)) ∧
    (Step.previous_step w s ext = none ↔
       ∀ q ∈ w.values.take s.index, q.is_active ext = false) ∧
    (s.index = 0 → Step.previous_step w s ext = none) ∧
    (∀ p, Step.next_step w s ext = some p ↔
       (p.is_active ext = true ∧ ∃ l₁ l₂, w.values.drop (s.index + 1) = l₁ ++ p :: l₂ ∧
          ∀ q ∈ l₁, q.is_active ext = false)) ∧
    (Step.next_step w s ext = none ↔
       ∀ q ∈ w.values.drop (s.index + 1), q.is_active ext = false) := by
  refine ⟨?_, ?_, ?_, ?_, ?_⟩
  · intro p
    unfold Step.previous_step
    rw [reverse_find?_eq_some]
  · unfold Step.previous_step
    rw [List.find?_eq_none]
    constructor
    · intro h q hq
      have := h q (List.mem_reverse.2 hq)
      simpa using this
    · intro h q hq
      have := h q (List.mem_reverse.1 hq)
      simp [this]
  · intro h0
    unfold Step.previous_step
    rw [h0]
    simp
  · intro p
    unfold Step.next_step
    rw [List.find?_eq_some]
    constructor
    · rintro ⟨h1, l₁, l₂, h2, h3⟩
      refine ⟨h1, l₁, l₂, h2, fun q hq => ?_⟩
      simpa using h3 q hq
    · rintro ⟨h1, l₁, l₂, h2, h3⟩
      refine ⟨h1, l₁, l₂, h2, fun q hq => ?_⟩
      simpa using h3 q hq
  · unfold Step.next_step
    rw [List.find?_eq_none]
    constructor
    · intro h q hq
      have := h q hq
      simpa using this
    · intro h q hq
      have := h q hq
      simp [this]

/-- C4 witness: the first step of `wDone2` (index 0) has no previous
step. -/
theorem C4_previous_next_scan_witness : Step.previous_step wDone2 stA () = none :=
  (C4_previous_next_scan wDone2 stA ()).2.2.1 rfl

/-- C10: `is_accessible()` never consults the step's own `is_active()`:
when the gating condition on the previous active step holds, an inactive
step is still accessible. -/
theorem C10_accessible_ignores_own_activity {Ext : Type} (w : Workflow Ext) (s : Step Ext)
    (ext : Ext) (hinact : s.is_active ext = false)
    (hgate : Step.previous_step w s ext = none ∨
      ∃ p, Step.previous_step w s ext = some p ∧ Step.is_completed w ext p = true) :
    Step.is_accessible w s ext = true := by
  unfold Step.is_accessible
  rcases hgate with h | ⟨p, hp, hc⟩
  · rw [h]
  · rw [hp]
    exact hc

/-- C10 witness: in `wOffGate` the inactive second step is accessible
because the first (active) step is completed. -/
theorem C10_accessible_ignores_own_activity_witness :
    Step.is_accessible wOffGate stOff1 () = true :=
  C10_accessible_ignores_own_activity wOffGate stOff1 () rfl (Or.inr ⟨stA, rfl, rfl⟩)

/-! ### Construction lemmas (enumerate + OrderedDict) -/

/-- Mapping a function of the element over an enumeration forgets the
counter. -/
theorem map_snd_enumFrom {α β : Type} (g : α → β) :
    ∀ (l : List α) (n : Nat), (l.enumFrom n).map (fun ic => g ic.2) = l.map g
  | [], _ => rfl
  | a :: t, n => by
    simp only [List.enumFrom_cons, List.map_cons]
    rw [map_snd_enumFrom g t (n + 1)]

/-- The step instances built from an enumeration carry the enumeration
counter as their index. -/
theorem enumFrom_step_index {Ext : Type} (l : List (StepClass Ext)) (n : Nat) :
    ∀ i, (h : i < ((l.enumFrom n).map (fun ic => Step.mk ic.2 ic.1)).length) →
      (((l.enumFrom n).map (fun ic => Step.mk ic.2 ic.1))[i]).index = n + i := by
  intro i h
  have h' : i < (l.enumFrom n).length := by simpa using h
  rw [List.getElem_map, List.getElem_enumFrom]

/-- Folding `odInsert` over pairs with pairwise distinct keys appends
them all in order. -/
theorem foldl_odInsert_eq_append {α : Type} :
    ∀ (l acc : List (String × α)), ((acc ++ l).map Prod.fst).Nodup →
      l.foldl odInsert acc = acc ++ l
  | [], acc, _ => by simp
  | kv :: t, acc, hnodup => by
    have hkey : kv.1 ∉ acc.map Prod.fst := by
      rw [List.map_append] at hnodup
      have hdisj := List.disjoint_of_nodup_append hnodup
      intro hmem
      exact hdisj hmem (by simp)
    have hany : acc.any (fun p => p.1 == kv.1) = false := by
      rw [List.any_eq_false]
      intro p hp
      simp only [beq_iff_eq]
      intro hpe
      exact hkey (hpe ▸ List.mem_map_of_mem Prod.fst hp)
    have hins : odInsert acc kv = acc ++ [kv] := by
      rw [odInsert, if_neg]
      simp [hany]
    rw [List.foldl_cons, hins, foldl_odInsert_eq_append t (acc ++ [kv]) (by simpa using hnodup)]
    simp

/-- `OrderedDict` construction from pairs with distinct keys is the
identity. -/
theorem odOfList_eq_self {α : Type} {l : List (String × α)}
    (h : (l.map Prod.fst).Nodup) : odOfList l = l := by
  have := foldl_odInsert_eq_append l [] (by simpa using h)
  simpa [odOfList] using this

/-! ### Claims C3, C5, C6 -/

/-- C3: without the reserved kwarg and with distinct slugs among the
included step classes, construction succeeds and yields exactly the
included definitions, keyed by slug, in registry order, with dense
contiguous indices 0, 1, 2, ... -/
theorem workflow_pairs_spec {Ext : Type} (l : List (StepClass Ext))
    (hnodup : (l.map StepClass.slug).Nodup) :
    (odOfList (l.enum.map (fun ic => (ic.2.slug, Step.mk ic.2 ic.1)))).map Prod.fst
        = l.map StepClass.slug ∧
    ((odOfList (l.enum.map (fun ic => (ic.2.slug, Step.mk ic.2 ic.1)))).map Prod.snd).map
        Step.cls = l ∧
    ∀ i, (h : i < ((odOfList (l.enum.map
          (fun ic => (ic.2.slug, Step.mk ic.2 ic.1)))).map Prod.snd).length) →
      (((odOfList (l.enum.map (fun ic => (ic.2.slug, Step.mk ic.2 ic.1)))).map
          Prod.snd)[i]).index = i := by
  have hpairs : ((l.enum.map (fun ic => (ic.2.slug, Step.mk ic.2 ic.1))).map Prod.fst)
      = l.map StepClass.slug := by
    rw [List.map_map]
    exact map_snd_enumFrom StepClass.slug l 0
  have hod : odOfList (l.enum.map (fun ic => (ic.2.slug, Step.mk ic.2 ic.1)))
      = l.enum.map (fun ic => (ic.2.slug, Step.mk ic.2 ic.1)) :=
    odOfList_eq_self (by rw [hpairs]; exact hnodup)
  refine ⟨by rw [hod]; exact hpairs, ?_, ?_⟩
  · rw [hod, List.map_map, List.map_map]
    exact (map_snd_enumFrom (fun c => c) l 0).trans (List.map_id l)
  · intro i h
    have hvals : (odOfList (l.enum.map (fun ic => (ic.2.slug, Step.mk ic.2 ic.1)))).map
          Prod.snd
        = (l.enumFrom 0).map (fun ic => Step.mk ic.2 ic.1) := by
      rw [hod, List.map_map]
      rfl
    have hlen : i < ((l.enumFrom 0).map (fun ic => Step.mk ic.2 ic.1)).length := by
      rw [← hvals]
      exact h
    have hgi : ((odOfList (l.enum.map (fun ic => (ic.2.slug, Step.mk ic.2 ic.1)))).map
          Prod.snd)[i]
        = ((l.enumFrom 0).map (fun ic => Step.mk ic.2 ic.1))[i] := by
      rw [List.getElem_eq_iff, hvals, List.getElem?_eq_getElem hlen]
    rw [hgi]
    have := enumFrom_step_index l 0 i hlen
    simpa using this

/-- C3: without the reserved kwarg and with distinct slugs among the
included step classes, construction succeeds and yields exactly the
included definitions, keyed by slug, in registry order, with dense
contiguous indices 0, 1, 2, ... -/
theorem C3_workflow_construction {Ext : Type} (step_classes : List (StepClass Ext))
    (kwargs : List (String × String))
    (hk : "steps" ∉ kwargs.map Prod.fst)
    (hnodup : ((step_classes.filter (fun cls => cls.include_in kwargs)).map
      StepClass.slug).Nodup) :
    ∃ w : Workflow Ext, Workflow.make step_classes kwargs = Except.ok w ∧
      w.steps.map Prod.fst =
        (step_classes.filter (fun cls => cls.include_in kwargs)).map StepClass.slug ∧
      w.values.map Step.cls = step_classes.filter (fun cls => cls.include_in kwargs) ∧
      ∀ i, (h : i < w.values.length) → (w.values[i]).index = i := by
  have hguard : kwargs.any (fun kv => kv.1 == "steps") = false := by
    rw [List.any_eq_false]
    intro kv hkv
    simp only [beq_iff_eq]
    intro he
    exact hk (he ▸ List.mem_map_of_mem Prod.fst hkv)
  refine ⟨⟨odOfList ((step_classes.filter (fun cls => cls.include_in kwargs)).enum.map
    (fun ic => (ic.2.slug, Step.mk ic.2 ic.1)))⟩, ?_, ?_, ?_, ?_⟩
  · rw [Workflow.make]
    rw [if_neg (by simp [hguard])]
  · exact (workflow_pairs_spec _ hnodup).1
  · exact (workflow_pairs_spec _ hnodup).2.1
  · exact (workflow_pairs_spec _ hnodup).2.2

/-- C3 witness: the spec's example — registry A, B, C where only B's
`include_in` is false yields steps A, C with indices 0 and 1. -/
theorem C3_workflow_construction_witness :
    ∃ w : Workflow Unit,
      Workflow.make [clsDone "a" "va", clsSkip "b" "vb", clsDone "c" "vc"] [("x", "y")]
        = Except.ok w ∧
      w.steps.map Prod.fst =
        (([clsDone "a" "va", clsSkip "b" "vb", clsDone "c" "vc"].filter
            (fun cls => cls.include_in [("x", "y")])).map StepClass.slug) ∧
      w.values.map Step.cls =
        [clsDone "a" "va", clsSkip "b" "vb", clsDone "c" "vc"].filter
          (fun cls => cls.include_in [("x", "y")]) ∧
      ∀ i, (h : i < w.values.length) → (w.values[i]).index = i :=
  C3_workflow_construction _ _ (by decide) (by decide)

/-- C3 counterexample to the claim as stated: with two included step
definitions sharing the slug `dup`, the `OrderedDict` collapses them: the
mapping holds a single entry (the later instance at the earlier position),
so it does not contain exactly the included definitions and its stored
index 1 sits at position 0 (not dense). -/
theorem C3_construction_counterexample :
    ∃ w : Workflow Unit,
      Workflow.make [clsDone "dup" "v1", clsTodo "dup" "v2"] [] = Except.ok w ∧
      w.values.map Step.cls
        ≠ [clsDone "dup" "v1", clsTodo "dup" "v2"].filter (fun cls => cls.include_in []) ∧
      ¬(∀ i, (h : i < w.values.length) → (w.values[i]).index = i) := by
  refine ⟨⟨[("dup", ⟨clsTodo "dup" "v2", 1⟩)]⟩, rfl, ?_, ?_⟩
  · intro h
    have hl := congrArg List.length h
    exact absurd hl (by decide)
  · intro h
    have h0 : (0 : Nat)
        < (Workflow.mk [("dup", ⟨clsTodo "dup" "v2", 1⟩)] : Workflow Unit).values.length := by
      decide
    have h1 : (1 : Nat) = 0 := h 0 h0
    exact absurd h1 (by decide)

/-- C5: a contextual attribute named `steps` makes construction fail with
the configuration error; no workflow value is produced. -/
theorem C5_reserved_steps_kwarg {Ext : Type} (step_classes : List (StepClass Ext))
    (kwargs : List (String × String)) (hk : "steps" ∈ kwargs.map Prod.fst) :
    Workflow.make step_classes kwargs =
      Except.error "`steps` can't be passed as a kwarg value." := by
  obtain ⟨kv, hkv, hfst⟩ := List.mem_map.1 hk
  have hguard : kwargs.any (fun kv => kv.1 == "steps") = true := by
    rw [List.any_eq_true]
    exact ⟨kv, hkv, by simp [hfst]⟩
  rw [Workflow.make, if_pos (by simp [hguard])]

/-- C5 witness: constructing with the kwarg `steps` present fails. -/
theorem C5_reserved_steps_kwarg_witness :
    Workflow.make ([] : List (StepClass Unit)) [("steps", "x")] =
      Except.error "`steps` can't be passed as a kwarg value." :=
  C5_reserved_steps_kwarg [] [("steps", "x")] (by decide)

/-- C6: `active_steps` is exactly the ordered sub-sequence of
`steps.values()` whose elements are currently active, and it is recomputed
live: a change of external state changes the result of the next call on
the same workflow value. -/
theorem C6_active_steps_live :
    (∀ (Ext : Type) (w : Workflow Ext) (ext : Ext),
       (w.active_steps ext).Sublist w.values ∧
       (∀ s : Step Ext, s ∈ w.active_steps ext ↔ s ∈ w.values ∧ s.is_active ext = true)) ∧
    (∃ (w : Workflow Bool) (e₁ e₂ : Bool), w.active_steps e₁ ≠ w.active_steps e₂) := by
  constructor
  · intro Ext w ext
    constructor
    · exact List.filter_sublist _
    · intro s
      simp [Workflow.active_steps]
  · refine ⟨wLive, true, false, ?_⟩
    intro h
    have h1 : wLive.active_steps true = [⟨clsLive, 0⟩] := rfl
    have h2 : wLive.active_steps false = [] := rfl
    rw [h1, h2] at h
    cases h

/-! ### Memoization lemmas -/

/-- Unfolding of `errorsSt` on a cache miss. -/
theorem errorsSt_eq_of_none {Ext : Type} {ext : Ext} {s : Step Ext} {σ : Store}
    (hc : (σ s.index).errorsCache = none) :
    errorsSt ext s σ =
      (s.cls.get_errors_impl ext,
        storeSet σ s.index
          { completedCache := (σ s.index).completedCache
            errorsCache := some (s.cls.get_errors_impl ext)
            completedCalls := (σ s.index).completedCalls
            errorsCalls := (σ s.index).errorsCalls + 1 }) := by
  unfold errorsSt
  rw [hc]

/-- Unfolding of `errorsSt` on a cache hit. -/
theorem errorsSt_eq_of_some {Ext : Type} {ext : Ext} {s : Step Ext} {σ : Store}
    {e : List String} (hc : (σ s.index).errorsCache = some e) :
    errorsSt ext s σ = (e, σ) := by
  unfold errorsSt
  rw [hc]

/-- Unfolding of `fillCompleted` on a cache miss. -/
theorem fillCompleted_eq_of_none {Ext : Type} {ext : Ext} {s : Step Ext} {σ : Store}
    (hc : (σ s.index).completedCache = none) :
    fillCompleted ext s σ =
      (s.cls.is_completed_impl ext,
        storeSet σ s.index
          { completedCache := some (s.cls.is_completed_impl ext)
            errorsCache := (σ s.index).errorsCache
            completedCalls := (σ s.index).completedCalls + 1
            errorsCalls := (σ s.index).errorsCalls }) := by
  unfold fillCompleted
  rw [hc]

/-- Unfolding of `fillCompleted` on a cache hit. -/
theorem fillCompleted_eq_of_some {Ext : Type} {ext : Ext} {s : Step Ext} {σ : Store}
    {c : Bool} (hc : (σ s.index).completedCache = some c) :
    fillCompleted ext s σ = (c, σ) := by
  unfold fillCompleted
  rw [hc]

/-- Reading the updated index returns the new state. -/
theorem storeSet_self {σ : Store} {k : Nat} {v : StepState} : storeSet σ k v k = v := by
  simp [storeSet]

/-- Reading any other index is unchanged. -/
theorem storeSet_ne {σ : Store} {k j : Nat} {v : StepState} (h : ¬(j = k)) :
    storeSet σ k v j = σ j := by
  simp [storeSet, h]

/-- The stateful `errors` property returns the pure `get_errors()` value
and preserves the store invariant. -/
theorem errorsSt_spec {Ext : Type} {w : Workflow Ext} (hwf : w.WF) (ext : Ext)
    {s : Step Ext} (hs : s ∈ w.values) {σ : Store} (hσ : GoodStore w ext σ) :
    (errorsSt ext s σ).1 = s.cls.get_errors_impl ext ∧
      GoodStore w ext (errorsSt ext s σ).2 := by
  obtain ⟨hidx, hval⟩ := wf_getElem_of_mem hwf hs
  cases hc : (σ s.index).errorsCache with
  | some e =>
    have hgood := (hσ.1 s.index hidx).2.1
    rw [hc, hval] at hgood
    rcases hgood with hg | hg
    · exact absurd hg (by simp)
    · rw [errorsSt_eq_of_some hc]
      exact ⟨by injection hg, hσ⟩
  | none =>
    rw [errorsSt_eq_of_none hc]
    refine ⟨rfl, ?_, ?_⟩
    all_goals dsimp only
    · intro i hi
      by_cases hieq : i = s.index
      · subst hieq
        rw [storeSet_self]
        obtain ⟨hg1, _, hg3, hg4⟩ := hσ.1 s.index hi
        have hg4' : (σ s.index).errorsCalls = 0 := by
          rw [hc] at hg4
          simpa using hg4
        refine ⟨hg1, Or.inr (by rw [hval]), hg3, ?_⟩
        show (σ s.index).errorsCalls + 1 = _
        rw [hg4']
        simp
      · rw [storeSet_ne hieq]
        exact hσ.1 i hi
    · intro i hi
      have hieq : ¬(i = s.index) := by omega
      rw [storeSet_ne hieq]
      exact hσ.2 i hi

/-- `fillCompleted` returns the pure `_is_completed()` value and
preserves the store invariant. -/
theorem fillCompleted_spec {Ext : Type} {w : Workflow Ext} (hwf : w.WF) (ext : Ext)
    {s : Step Ext} (hs : s ∈ w.values) {σ : Store} (hσ : GoodStore w ext σ) :
    (fillCompleted ext s σ).1 = s.cls.is_completed_impl ext ∧
      GoodStore w ext (fillCompleted ext s σ).2 := by
  obtain ⟨hidx, hval⟩ := wf_getElem_of_mem hwf hs
  cases hc : (σ s.index).completedCache with
  | some c =>
    have hgood := (hσ.1 s.index hidx).1
    rw [hc, hval] at hgood
    rcases hgood with hg | hg
    · exact absurd hg (by simp)
    · rw [fillCompleted_eq_of_some hc]
      exact ⟨by injection hg, hσ⟩
  | none =>
    rw [fillCompleted_eq_of_none hc]
    refine ⟨rfl, ?_, ?_⟩
    all_goals dsimp only
    · intro i hi
      by_cases hieq : i = s.index
      · subst hieq
        rw [storeSet_self]
        obtain ⟨_, hg2, hg3, hg4⟩ := hσ.1 s.index hi
        have hg3' : (σ s.index).completedCalls = 0 := by
          rw [hc] at hg3
          simpa using hg3
        refine ⟨Or.inr (by rw [hval]), hg2, ?_, hg4⟩
        show (σ s.index).completedCalls + 1 = _
        rw [hg3']
        simp
      · rw [storeSet_ne hieq]
        exact hσ.1 i hi
    · intro i hi
      have hieq : ¬(i = s.index) := by omega
      rw [storeSet_ne hieq]
      exact hσ.2 i hi

/-- The stateful `is_completed()` returns the pure denotation and
preserves the store invariant, for any sufficient fuel. -/
theorem is_completedSt_spec {Ext : Type} {w : Workflow Ext} (hwf : w.WF) (ext : Ext) :
    ∀ fuel (s : Step Ext), s ∈ w.values → s.index < fuel → ∀ σ, GoodStore w ext σ →
      (is_completedSt w ext fuel s σ).1 = Step.is_completedN w ext fuel s ∧
      GoodStore w ext (is_completedSt w ext fuel s σ).2 := by
  intro fuel
  induction fuel with
  | zero => intro s _ h; omega
  | succ f ih =>
    intro s hs hlt σ hσ
    obtain ⟨hfill1, hfill2⟩ := fillCompleted_spec hwf ext hs hσ
    obtain ⟨herr1, herr2⟩ := errorsSt_spec hwf ext hs hfill2
    simp only [is_completedSt, Step.is_completedN, hfill1, herr1]
    cases hcc : s.cls.is_completed_impl ext with
    | false =>
      simp only [if_pos rfl, Bool.false_and]
      exact ⟨rfl, hfill2⟩
    | true =>
      simp only [Bool.true_and]
      rw [if_neg (by simp)]
      show ((if (s.cls.get_errors_impl ext).isEmpty = false then _ else _ : Bool × Store).1
          = (s.is_valid ext && _)) ∧ _
      cases hemp : (s.cls.get_errors_impl ext).isEmpty with
      | false =>
        simp only [if_pos rfl]
        have hv : s.is_valid ext = false := hemp
        rw [hv]
        exact ⟨rfl, herr2⟩
      | true =>
        rw [if_neg (by simp)]
        have hv : s.is_valid ext = true := hemp
        rw [hv]
        simp only [Bool.true_and]
        cases hp : Step.previous_step w s ext with
        | none => exact ⟨rfl, herr2⟩
        | some p =>
          obtain ⟨hpm, hpi⟩ := previous_step_index_lt hwf hp
          exact ih p hpm (by omega) _ herr2

/-- The fresh store satisfies the invariant. -/
theorem initStore_good {Ext : Type} (w : Workflow Ext) (ext : Ext) :
    GoodStore w ext initStore := by
  refine ⟨?_, ?_⟩
  · intro i _
    exact ⟨Or.inl rfl, Or.inl rfl, rfl, rfl⟩
  · intro i _
    rfl

/-- Each externally triggered call preserves the store invariant. -/
theorem applyOp_good {Ext : Type} {w : Workflow Ext} (hwf : w.WF) (ext : Ext)
    {σ : Store} (hσ : GoodStore w ext σ) (op : WOp) :
    GoodStore w ext (applyOp w ext σ op) := by
  cases op with
  | callCompleted i =>
    simp only [applyOp]
    cases hg : w.values[i]? with
    | none => exact hσ
    | some s =>
      have hs : s ∈ w.values := List.getElem?_mem hg
      exact (is_completedSt_spec hwf ext (s.index + 1) s hs (by omega) σ hσ).2
  | callErrors i =>
    simp only [applyOp]
    cases hg : w.values[i]? with
    | none => exact hσ
    | some s =>
      have hs : s ∈ w.values := List.getElem?_mem hg
      exact (errorsSt_spec hwf ext hs hσ).2

/-- Any sequence of calls on a fresh workflow preserves the invariant. -/
theorem runOps_good {Ext : Type} {w : Workflow Ext} (hwf : w.WF) (ext : Ext)
    (ops : List WOp) : GoodStore w ext (runOps w ext ops) := by
  suffices h : ∀ σ, GoodStore w ext σ → GoodStore w ext (ops.foldl (applyOp w ext) σ) from
    h initStore (initStore_good w ext)
  induction ops with
  | nil => intro σ h; exact h
  | cons op t ih =>
    intro σ h
    exact ih _ (applyOp_good hwf ext h op)

/-! ### Claim C7 -/

/-- C7: with unchanged external state, across any sequence of
`is_completed()`/`errors` calls each underlying hook (`_is_completed`,
`get_errors`) is invoked at most once per step instance, and every later
call still returns the pure (first-computed) value. -/
theorem C7_memoization {Ext : Type} (w : Workflow Ext) (ext : Ext) (hwf : w.WF)
    (ops : List WOp) :
    (∀ i : Nat, (runOps w ext ops i).completedCalls ≤ 1 ∧
       (runOps w ext ops i).errorsCalls ≤ 1) ∧
    (∀ s ∈ w.values,
       (is_completedSt w ext (s.index + 1) s (runOps w ext ops)).1
         = Step.is_completed w ext s ∧
       (errorsSt ext s (runOps w ext ops)).1 = Step.errors s ext) := by
  have hgood := runOps_good hwf ext ops
  constructor
  · intro i
    by_cases hlen : i < w.values.length
    · obtain ⟨_, _, hcc, hec⟩ := hgood.1 i hlen
      constructor
      · rw [hcc]
        split
        · omega
        · omega
      · rw [hec]
        split
        · omega
        · omega
    · have hinit := hgood.2 i (by omega)
      rw [hinit]
      exact ⟨Nat.zero_le 1, Nat.zero_le 1⟩
  · intro s hs
    exact ⟨(is_completedSt_spec hwf ext (s.index + 1) s hs (by omega) _ hgood).1,
           (errorsSt_spec hwf ext hs hgood).1⟩

/-- C7 witness: on the concrete workflow `wDone2`, after repeated calls
the second step's `_is_completed` counter is at most 1 and a further
`is_completed()` call still returns the pure value. -/
theorem C7_memoization_witness :
    ((runOps wDone2 () [WOp.callCompleted 1, WOp.callCompleted 1, WOp.callErrors 0]) 1).completedCalls ≤ 1 ∧
    (is_completedSt wDone2 () (stB.index + 1) stB
        (runOps wDone2 () [WOp.callCompleted 1, WOp.callCompleted 1, WOp.callErrors 0])).1
      = Step.is_completed wDone2 () stB := by
  have h := C7_memoization wDone2 () (by decide)
    [WOp.callCompleted 1, WOp.callCompleted 1, WOp.callErrors 0]
  exact ⟨(h.1 1).1, (h.2 stB (List.Mem.tail _ (List.Mem.head _))).1⟩

/-! ### Claims C8, C9 -/

/-- C8 (amended): when the requested step exists, is active and is
accessible, the request proceeds to it; when any check fails, the
controller redirects to the last accessible-and-active step of the full
ordered sequence if one exists, and otherwise no redirect happens and the
request proceeds with the requested (missing or invalid) step. -/
theorem C8_dispatch_redirect {Ext : Type} (w : Workflow Ext) (slug : String) (ext : Ext) :
    (∀ cur, odGet? w.steps slug = some cur → cur.is_active ext = true →
       Step.is_accessible w cur ext = true →
       dispatch (some w) (some slug) ext = DispatchResult.proceed (some cur)) ∧
    ((odGet? w.steps slug = none ∨
      (∃ cur, odGet? w.steps slug = some cur ∧
        (cur.is_active ext = false ∨ Step.is_accessible w cur ext = false))) →
      ((∃ target l₁ l₂, w.values = l₁ ++ target :: l₂ ∧
          Step.is_accessible w target ext = true ∧ target.is_active ext = true ∧
          (∀ q ∈ l₂, Step.is_accessible w q ext = false ∨ q.is_active ext = false) ∧
          dispatch (some w) (some slug) ext = DispatchResult.redirect target) ∨
       ((∀ q ∈ w.values, Step.is_accessible w q ext = false ∨ q.is_active ext = false) ∧
          dispatch (some w) (some slug) ext
            = DispatchResult.proceed (odGet? w.steps slug)))) := by
  constructor
  · intro cur hcur hact hacc
    simp only [dispatch, hcur]
    rw [if_pos]
    rw [hact, hacc]
    rfl
  · intro hfail
    cases hfind : w.values.reverse.find?
        (fun step => Step.is_accessible w step ext && step.is_active ext) with
    | some target =>
      obtain ⟨hpred, l₁, l₂, hsplit, hafter⟩ := reverse_find?_eq_some.1 hfind
      have hpred' := hpred
      simp only [Bool.and_eq_true] at hpred'
      refine Or.inl ⟨target, l₁, l₂, hsplit, hpred'.1, hpred'.2, ?_, ?_⟩
      · intro q hq
        have hqfalse : (Step.is_accessible w q ext && q.is_active ext) = false := hafter q hq
        cases hacc2 : Step.is_accessible w q ext with
        | false => exact Or.inl rfl
        | true =>
          rw [hacc2] at hqfalse
          exact Or.inr (by simpa using hqfalse)
      · rcases hfail with hnone | ⟨cur, hcur, hbad⟩
        · simp only [dispatch, hnone, hfind]
        · simp only [dispatch, hcur]
          rw [if_neg]
          · rw [hfind]
          · rcases hbad with hb | hb
            · rw [hb]
              simp
            · rw [hb]
              simp
    | none =>
      have hall : ∀ q ∈ w.values,
          Step.is_accessible w q ext = false ∨ q.is_active ext = false := by
        intro q hq
        have hqn := List.find?_eq_none.1 hfind q (List.mem_reverse.2 hq)
        have hqfalse : (Step.is_accessible w q ext && q.is_active ext) = false := by
          simpa using hqn
        cases hacc2 : Step.is_accessible w q ext with
        | false => exact Or.inl rfl
        | true =>
          rw [hacc2] at hqfalse
          exact Or.inr (by simpa using hqfalse)
      refine Or.inr ⟨hall, ?_⟩
      rcases hfail with hnone | ⟨cur, hcur, hbad⟩
      · simp only [dispatch, hnone, hfind]
      · simp only [dispatch, hcur]
        rw [if_neg]
        · rw [hfind]
        · rcases hbad with hb | hb
          · rw [hb]
            simp
          · rw [hb]
            simp

/-- C8 counterexample to the claim as stated: in the one-step workflow
`wOff1` whose only step is inactive, requesting a missing slug fails the
existence check, yet the controller does not redirect — it proceeds with
no current step, because no accessible-and-active step exists. -/
theorem C8_dispatch_counterexample :
    odGet? wOff1.steps "missing" = none ∧
    dispatch (some wOff1) (some "missing") () = DispatchResult.proceed none ∧
    ∀ target : Step Unit,
      dispatch (some wOff1) (some "missing") () ≠ DispatchResult.redirect target := by
  refine ⟨rfl, rfl, ?_⟩
  intro target h
  have h2 : (DispatchResult.proceed none : DispatchResult Unit)
      = DispatchResult.redirect target := h
  cases h2

/-- C8 witness: requesting the existing, active, accessible first step of
`wDone2` proceeds to it. -/
theorem C8_dispatch_redirect_witness :
    dispatch (some wDone2) (some "a") () = DispatchResult.proceed (some stA) :=
  (C8_dispatch_redirect wDone2 "a" ()).1 stA rfl rfl rfl

/-- C9: `get_success_url` returns the current step's own view exactly on
the errors branch; with no errors it returns the next active step's view
when one exists and fails (no value, the unhandled `AttributeError`) when
the current step is the last active one. -/
theorem C9_get_success_url {Ext : Type} (w : Workflow Ext) (cur : Step Ext) (ext : Ext) :
    (cur.errors ext ≠ [] → get_success_url w cur ext = some cur.cls.view_name) ∧
    (cur.errors ext = [] → ∀ n, Step.next_step w cur ext = some n →
       get_success_url w cur ext = some n.cls.view_name) ∧
    (cur.errors ext = [] → Step.next_step w cur ext = none →
       get_success_url w cur ext = none) := by
  refine ⟨?_, ?_, ?_⟩
  · intro h
    rw [get_success_url, if_pos]
    simp [h]
  · intro h n hn
    rw [get_success_url, if_neg, hn]
    · rfl
    · simp [h]
  · intro h hn
    rw [get_success_url, if_neg, hn]
    · rfl
    · simp [h]

/-- C9 witness: in `wDone2` (no errors anywhere) the first step advances
to the second step's view, and the last step has no next step, so the
call yields no value. -/
theorem C9_get_success_url_witness :
    get_success_url wDone2 stA () = some "vb" ∧ get_success_url wDone2 stB () = none := by
  constructor
  · exact (C9_get_success_url wDone2 stA ()).2.1 rfl stB rfl
  · exact (C9_get_success_url wDone2 stB ()).2.2 rfl rfl

end Brambling
